/-
Verification of `bm/ensemble_score.py` (rank statistics for ensemble
forecast verification) against its specification.

Shallow embedding notes.
* An `xr.Dataset` is modelled by `Dataset`: dimension names, the
  coordinate labels of the two axes, and per-variable numeric data laid
  out as rows indexed by `ensemble_member` whose entries are indexed by
  `init_time`.  Numeric values are `ℚ` (the claims only need exact
  arithmetic on the data; ranks produced by the average-tie convention
  are half-integers, hence rationals).
* `DataArray.rank(dim="ensemble_member")` with the default average-tie
  method assigns to a value `x` among the column values the rank
  `countLt + (countEq + 1) / 2` (1-based; tied values receive the mean
  of the positions they occupy), embodied by `rank_avg`.
* `get_ranks` mutates its `ground_truth` argument (the coordinate
  relabelling `ground_truth["ensemble_member"] = [-1]`); the embedding
  makes the state explicit: it returns the result together with the
  post-call states of both arguments.
* A `numpy` array is `NpArr`: a dtype, a shape, and row-major flat
  data.  On the 64-bit platform the code targets, `np.unique`'s counts
  are `int64`, and fancy indexing preserves the dtype.
* Python exceptions (the `assert` statements, and the `ValueError` /
  `IndexError` arising from building an array out of ragged rows) are
  modelled by `Except String`.
-/
import Mathlib

/-- Equality of `Except` results is decidable when both components are. -/
instance {ε α : Type} [DecidableEq ε] [DecidableEq α] : DecidableEq (Except ε α) := fun a b =>
  match a, b with
  | Except.error e, Except.error f =>
    if h : e = f then Decidable.isTrue (by rw [h]) else
      Decidable.isFalse (by intro hc; cases hc; exact h rfl)
  | Except.ok x, Except.ok y =>
    if h : x = y then Decidable.isTrue (by rw [h]) else
      Decidable.isFalse (by intro hc; cases hc; exact h rfl)
  | Except.error _, Except.ok _ => Decidable.isFalse (by intro hc; cases hc)
  | Except.ok _, Except.error _ => Decidable.isFalse (by intro hc; cases hc)

namespace EnsembleScore

/-- Numpy element types the embedding distinguishes. -/
inductive DType where
  | int64
  | uint64
  | int32
  | float64
  deriving DecidableEq, Repr

/-- A numpy array: dtype, shape, and row-major flat data. -/
structure NpArr where
  dtype : DType
  shape : List Nat
  data : List ℚ
  deriving DecidableEq, Repr

/-- An `xr.Dataset` with (at most) the two dimensions the code uses:
dimension names as declared, the `ensemble_member` integer coordinate
labels, the `init_time` coordinate labels, and the data variables.  A
variable's value is a list of rows, one row per ensemble member, each
row holding one value per init_time. -/
structure Dataset where
  dims : List String
  ensemble_member : List Int
  init_time : List String
  data_vars : List (String × List (List ℚ))
  deriving DecidableEq, Repr

/-- Result of `get_ranks`: per variable, one rank per init_time (the
`ensemble_member` axis is collapsed by the `.sel`). -/
structure Ranks where
  data_vars : List (String × List ℚ)
  deriving DecidableEq, Repr

/-- The dimension names required by the docstring and the assert. -/
def requiredDims : List String := ["ensemble_member", "init_time"]

/-- Equality of dimension-name collections as sets (Python compares
`set(...)` objects). -/
def setEqB (a b : List String) : Bool :=
  a.all (fun s => decide (s ∈ b)) && b.all (fun s => decide (s ∈ a))

/-- The chained comparison of the assert in `get_ranks`:
`set(("ensemble_member", "init_time")) == set(ensemble_data.dims) == set(ground_truth.dims)`. -/
def dimsAssertOk (ground_truth ensemble_data : Dataset) : Bool :=
  setEqB requiredDims ensemble_data.dims && setEqB ensemble_data.dims ground_truth.dims

/-- Look up a data variable by name (empty data if absent). -/
def lookupVar (vs : List (String × List (List ℚ))) (nm : String) : List (List ℚ) :=
  ((vs.find? (fun p => p.1 == nm)).map Prod.snd).getD []

/-- The ground-truth value of variable `nm` at init_time index `t`
(the ground truth has a single ensemble_member row). -/
def gtValAt (ds : Dataset) (nm : String) (t : Nat) : ℚ :=
  ((lookupVar ds.data_vars nm).headD []).getD t 0

/-- The column of ensemble-member values of variable `nm` at init_time
index `t`. -/
def ensColAt (ds : Dataset) (nm : String) (t : Nat) : List ℚ :=
  (lookupVar ds.data_vars nm).map (fun row => row.getD t 0)

/-- Average-tie rank (1-based) of `x` within the list `l` (which
contains `x`): ties occupy consecutive positions and each receives the
mean of those positions, i.e. `countLt + (countEq + 1) / 2`. -/
def rank_avg (x : ℚ) (l : List ℚ) : ℚ :=
  (l.countP (fun y => decide (y < x)) : ℚ) +
    ((l.countP (fun y => decide (y = x)) : ℚ) + 1) / 2

/-- Error message standing for the Python `AssertionError` of the
dimension-set assert in `get_ranks`. -/
def dimsAssertMsg : String := "AssertionError: dimension sets differ"

/-- `get_ranks(ground_truth, ensemble_data)`: assert the dimension
sets, relabel the ground truth's ensemble_member coordinate to `[-1]`
(an in-place mutation of the caller's object), merge, rank along
`ensemble_member`, and select the sentinel row.  The merged column for
variable `nm` at time `t` consists of the truth value and the `N`
ensemble values, so the selected rank is `rank_avg` of the truth value
in that column.  The post-call states of both arguments are returned
alongside the result to make the mutation observable. -/
def get_ranks (ground_truth ensemble_data : Dataset) :
    Except String (Ranks × Dataset × Dataset) :=
  if dimsAssertOk ground_truth ensemble_data then
    let gt' : Dataset := { ground_truth with ensemble_member := [-1] }
    Except.ok
      (⟨ground_truth.data_vars.map (fun p =>
          (p.1, (List.range ground_truth.init_time.length).map (fun t =>
            rank_avg (gtValAt ground_truth p.1 t)
              (gtValAt ground_truth p.1 t :: ensColAt ensemble_data p.1 t))))⟩,
        gt', ensemble_data)
  else Except.error dimsAssertMsg

/-- The rank list of variable `nm` from a `get_ranks` result (empty on
error or absent variable). -/
def ranksForRes (e : Except String (Ranks × Dataset × Dataset)) (nm : String) : List ℚ :=
  match e with
  | Except.ok (r, _, _) => ((r.data_vars.find? (fun p => p.1 == nm)).map Prod.snd).getD []
  | Except.error _ => []

/-- The rank of variable `nm` at init_time index `t` from a
`get_ranks` result. -/
def rankAtRes (e : Except String (Ranks × Dataset × Dataset)) (nm : String) (t : Nat) : ℚ :=
  (ranksForRes e nm).getD t 0

/-- `np.unique(values)`: the distinct values, sorted ascending. -/
def uniqueSorted (l : List ℚ) : List ℚ :=
  List.insertionSort (fun a b => a ≤ b) l.dedup

/-- `np.where(unique_values == k)[0]`: the positions of `k` in the
unique-value array. -/
def positionsOf (uniq : List ℚ) (k : ℚ) : List Nat :=
  (List.range uniq.length).filter (fun i => decide (uniq.getD i 0 = k))

/-- Error message standing for the numpy failure when
`np.array([...])` is handed rows of unequal lengths (and the fancy
indexing it feeds): some canonical rank matched a unique value while
another found no match. -/
def raggedRowsMsg : String := "ValueError: inhomogeneous ranks array"

/-- The occurrence counts paired with `np.unique`'s values
(`return_counts=True`). -/
def uniqueCounts (rl : List ℚ) : List ℕ :=
  (uniqueSorted rl).map (fun u => rl.count u)

/-- One row of the `indices` lookup, already pushed through
`counts[...]`: the counts found at the positions where the unique
values equal the canonical rank `k`. -/
def rankRow (rl : List ℚ) (k : ℚ) : List ℚ :=
  (positionsOf (uniqueSorted rl) k).map (fun p => (((uniqueCounts rl).getD p 0 : ℕ) : ℚ))

/-- All rows of the lookup, one per canonical rank `1..n_ranks`
(`np.arange(1, n_ranks + 1)`). -/
def rankRows (rl : List ℚ) (n_ranks : Nat) : List (List ℚ) :=
  (List.range n_ranks).map (fun (i : ℕ) => rankRow rl ((i : ℚ) + 1))

/-- The per-variable body of the loop in `get_ranks_distributions`:
`unique_values, counts = np.unique(rl, return_counts=True)`;
`indices = np.array([np.where(unique_values == k)[0] for k in np.arange(1, n_ranks + 1)])`;
`counts[indices]`.  Each row of `indices` is the (possibly empty)
position list of one canonical rank; `np.array` only yields an integer
index array when all rows have equal length, otherwise the lookup
fails.  The counts delivered by `np.unique` are `int64`, and fancy
indexing keeps that dtype, so the result array is `int64` of shape
`(n_ranks, L)` with `L` the common row length. -/
def distFor (rl : List ℚ) (n_ranks : Nat) : Except String NpArr :=
  if (rankRows rl n_ranks).all
      (fun r => r.length == ((rankRows rl n_ranks).headD []).length) then
    Except.ok
      { dtype := DType.int64,
        shape := [n_ranks, ((rankRows rl n_ranks).headD []).length],
        data := (rankRows rl n_ranks).flatten }
  else Except.error raggedRowsMsg

/-- The `for var in ranks.data_vars` loop of
`get_ranks_distributions`: build the result mapping variable by
variable, raising at the first failing lookup. -/
def distLoop (n_ranks : Nat) :
    List (String × List ℚ) → Except String (List (String × NpArr))
  | [] => Except.ok []
  | p :: rest =>
    match distFor p.2 n_ranks with
    | Except.error e => Except.error e
    | Except.ok arr =>
      match distLoop n_ranks rest with
      | Except.error e => Except.error e
      | Except.ok out => Except.ok ((p.1, arr) :: out)

/-- `get_ranks_distributions(ground_truth, ensemble_data)`: compute
the ranks, then for each variable look the canonical ranks
`1..n_ranks` up in the unique-value/count arrays.  Like `get_ranks`,
the post-call argument states are carried through. -/
def get_ranks_distributions (ground_truth ensemble_data : Dataset) :
    Except String (List (String × NpArr) × Dataset × Dataset) :=
  match get_ranks ground_truth ensemble_data with
  | Except.error e => Except.error e
  | Except.ok (ranks, gt', ens') =>
    match distLoop (ensemble_data.ensemble_member.length + 1) ranks.data_vars with
    | Except.error e => Except.error e
    | Except.ok res => Except.ok (res, gt', ens')

/-- Row `i` of a 2-D numpy array (as stored row-major). -/
def rowSlice (a : NpArr) (i : Nat) : List ℚ :=
  match a.shape with
  | [_, len] => (a.data.drop (i * len)).take len
  | _ => []

/-- The count array of variable `nm` from a `get_ranks_distributions`
result (a dummy empty float array on error or absent variable). -/
def distArrOf (e : Except String (List (String × NpArr) × Dataset × Dataset))
    (nm : String) : NpArr :=
  match e with
  | Except.ok (res, _, _) =>
    ((res.find? (fun p => p.1 == nm)).map Prod.snd).getD ⟨DType.float64, [], []⟩
  | Except.error _ => ⟨DType.float64, [], []⟩

/-- The assertion message of `get_entropy_of_distributions` for an
offending variable (the Python code formats the variable name into
the string). -/
def int64CheckMsg (nm : String) : String :=
  "For variable " ++ nm ++ " the ranks are not of type int64"

/-- `scipy.stats.entropy(pk)` for a 1-D count array with the default
natural-log base: normalize to probabilities and sum `-p * ln p`, a
zero count contributing `0` (for the 2-D arrays the pipeline can
produce this flattens the `(n, 1)` column, which agrees with the
axis-0 computation on that single column). -/
noncomputable def shannonEntropy (l : List ℚ) : ℝ :=
  (l.map (fun c => Real.negMulLog ((c / l.sum : ℚ) : ℝ))).sum

/-- `get_entropy_of_distributions(distributions)`: first the assert
loop — `assert value.dtype == "int64"` for every variable, raising at
the first offender (note `np.uint64 != "int64"`) — then the entropy
of each count array. -/
noncomputable def get_entropy_of_distributions
    (distributions : List (String × NpArr)) : Except String (List (String × ℝ)) :=
  match distributions.find? (fun p => !(p.2.dtype == DType.int64)) with
  | some p => Except.error (int64CheckMsg p.1)
  | none => Except.ok (distributions.map (fun p => (p.1, shannonEntropy p.2.data)))

/-! ### Well-formed input pairs

The docstrings describe the valid inputs: both datasets carry the two
required dimensions, the ground truth has a single ensemble_member
row, variable names (unique, as in any `xr.Dataset`) coincide, and the
init_time coordinates are aligned. -/

/-- Data shapes of a dataset agree with its coordinates. -/
def shapesOk (ds : Dataset) : Bool :=
  ds.data_vars.all (fun p =>
    p.2.length == ds.ensemble_member.length &&
      p.2.all (fun row => row.length == ds.init_time.length))

/-- A valid input pair per the docstrings of `ensemble_score.py`. -/
def wfInputs (ground_truth ensemble_data : Dataset) : Bool :=
  shapesOk ground_truth && shapesOk ensemble_data &&
  ground_truth.ensemble_member.length == 1 &&
  (ground_truth.data_vars.map Prod.fst == ensemble_data.data_vars.map Prod.fst) &&
  decide (ground_truth.data_vars.map Prod.fst).Nodup &&
  ground_truth.init_time == ensemble_data.init_time

/-! ### Concrete inputs

`exGT`/`exENS` is the concrete scenario of the specification's
testable property 5 (three members, two init_times, truth below all
members at `t0` and above all at `t1`). -/

/-- Ground truth of the spec's concrete scenario: `temp = [0, 4]`. -/
def exGT : Dataset := ⟨requiredDims, [0], ["t0", "t1"], [("temp", [[0, 4]])]⟩

/-- Ensemble of the spec's concrete scenario: members `{0,1,2}`,
`temp` member rows `[[1,1],[2,2],[3,3]]` (i.e. values `[1,2,3]` at
each init_time). -/
def exENS : Dataset :=
  ⟨requiredDims, [0, 1, 2], ["t0", "t1"], [("temp", [[1, 1], [2, 2], [3, 3]])]⟩

/-- `exGT` after the in-place coordinate relabelling done by
`get_ranks`. -/
def exGTmut : Dataset := ⟨requiredDims, [-1], ["t0", "t1"], [("temp", [[0, 4]])]⟩

/-- The rank dataset `get_ranks` produces on the scenario. -/
def exRanks : Ranks := ⟨[("temp", [1, 4])]⟩

/-- One member, one init_time, truth strictly below the member: the
truth's rank is 1 at the only init_time, so canonical rank 2 never
occurs. -/
def c1GT : Dataset := ⟨requiredDims, [0], ["t0"], [("temp", [[0]])]⟩

/-- Ensemble for the missing-rank input: a single member with value 1. -/
def c1ENS : Dataset := ⟨requiredDims, [0], ["t0"], [("temp", [[1]])]⟩

/-- One member, three init_times; truth below the member at `t0`,
above at `t1`, tied at `t2` (rank 3/2 by the average-tie rule). -/
def c2GT : Dataset := ⟨requiredDims, [0], ["t0", "t1", "t2"], [("temp", [[0, 3, 2]])]⟩

/-- Ensemble for the tie input: member values `[1, 2, 2]`. -/
def c2ENS : Dataset := ⟨requiredDims, [0], ["t0", "t1", "t2"], [("temp", [[1, 2, 2]])]⟩

/-- Three members with values `[1,2,3]` at each of four init_times;
truths `0, 3/2, 5/2, 4` realize every canonical rank `1,2,3,4`
exactly once, so the distribution lookup succeeds. -/
def c9GT : Dataset :=
  ⟨requiredDims, [0], ["t0", "t1", "t2", "t3"], [("temp", [[0, 3/2, 5/2, 4]])]⟩

/-- Ensemble for the all-ranks-realized input. -/
def c9ENS : Dataset :=
  ⟨requiredDims, [0, 1, 2], ["t0", "t1", "t2", "t3"],
    [("temp", [[1, 1, 1, 1], [2, 2, 2, 2], [3, 3, 3, 3]])]⟩

/-- `c9GT` after the in-place coordinate relabelling. -/
def c9GTmut : Dataset :=
  ⟨requiredDims, [-1], ["t0", "t1", "t2", "t3"], [("temp", [[0, 3/2, 5/2, 4]])]⟩

/-- The distributions `get_ranks_distributions` produces on the
all-ranks-realized input: a `(4, 1)`-shaped int64 array of ones. -/
def c9Res : List (String × NpArr) := [("temp", ⟨DType.int64, [4, 1], [1, 1, 1, 1]⟩)]

/-- An input mapping for the entropy stage whose only array is of
dtype uint64 (a 64-bit integer type that is not `"int64"`). -/
def c6Input : List (String × NpArr) := [("x", ⟨DType.uint64, [2], [1, 1]⟩)]

/-! ### C1 — missing canonical rank makes the lookup raise -/

unseal Rat.add Rat.mul Rat.inv in
/-- C1 (code bug): the spec requires a canonical rank that never
occurs to contribute a zero count without raising, but on the input
where the truth sits below the single ensemble member at the only
init_time (realized rank 1, canonical rank 2 absent) the
`np.where`-based lookup produces ragged index rows and the call
raises instead of returning a zero count. -/
theorem c1_missing_rank_raises :
    get_ranks_distributions c1GT c1ENS = Except.error raggedRowsMsg := by
  decide

/-! ### C2 — ties drop mass from the histogram -/

unseal Rat.add Rat.mul Rat.inv in
/-- C2 (code bug): the spec requires the histogram of a variable to
sum to the number of init_times; on the three-init_time input where
the truth ties a member at `t2` (average rank 3/2) the tied
init_time is counted in no bin, so the histogram sums to 2 while the
input has 3 init_times. -/
theorem c2_tie_count_lost :
    (distArrOf (get_ranks_distributions c2GT c2ENS) "temp").data.sum = 2 ∧
      c2GT.init_time.length = 3 := by
  exact ⟨by decide, by decide⟩

/-! ### C5 — the dimension assert fires exactly on mismatched sets -/

/-- The boolean set-equality test agrees with extensional equality of
the name collections. -/
theorem setEqB_iff (a b : List String) : setEqB a b = true ↔ (∀ s, s ∈ a ↔ s ∈ b) := by
  simp only [setEqB, Bool.and_eq_true, List.all_eq_true, decide_eq_true_eq]
  constructor
  · rintro ⟨h1, h2⟩ s
    exact ⟨fun hs => h1 s hs, fun hs => h2 s hs⟩
  · intro h
    exact ⟨fun s hs => (h s).mp hs, fun s hs => (h s).mpr hs⟩

/-- C5: `get_ranks` raises its assertion error exactly when the
dimension-name set of `ground_truth` or of `ensemble_data` differs
from `{"ensemble_member", "init_time"}` or the two differ from each
other; on conforming inputs the assertion does not fire. -/
theorem c5_dims_assert (gt ens : Dataset) :
    get_ranks gt ens = Except.error dimsAssertMsg ↔
      ¬ ((∀ s, s ∈ gt.dims ↔ s ∈ requiredDims) ∧
          (∀ s, s ∈ ens.dims ↔ s ∈ requiredDims) ∧
          (∀ s, s ∈ gt.dims ↔ s ∈ ens.dims)) := by
  have herr : get_ranks gt ens = Except.error dimsAssertMsg ↔
      ¬ dimsAssertOk gt ens = true := by
    cases h : dimsAssertOk gt ens <;> simp [get_ranks, h]
  rw [herr]
  apply not_congr
  rw [dimsAssertOk, Bool.and_eq_true, setEqB_iff, setEqB_iff]
  constructor
  · rintro ⟨hA, hB⟩
    exact ⟨fun s => ((hB s).symm.trans (hA s).symm),
      fun s => (hA s).symm, fun s => (hB s).symm⟩
  · rintro ⟨h1, h2, h3⟩
    exact ⟨fun s => (h2 s).symm, fun s => (h3 s).symm⟩

/-! ### C8 — the only mutation is the sentinel coordinate relabelling -/

/-- C8: a successful `get_ranks` call leaves the ground-truth object
with its ensemble_member coordinate rewritten to the sentinel `[-1]`
and everything else intact: the ground truth's data values, dims and
init_time, and the entire ensemble dataset, are unchanged. -/
theorem c8_mutation_frame (gt ens : Dataset) (r : Ranks) (g e : Dataset)
    (hok : get_ranks gt ens = Except.ok (r, g, e)) :
    g.ensemble_member = [-1] ∧ g.data_vars = gt.data_vars ∧
      g.dims = gt.dims ∧ g.init_time = gt.init_time ∧ e = ens := by
  unfold get_ranks at hok
  split at hok
  · injection hok with h
    injection h with h1 h2
    injection h2 with h2 h3
    subst h2
    subst h3
    exact ⟨rfl, rfl, rfl, rfl, rfl⟩
  · exact absurd hok (by simp)

unseal Rat.add Rat.mul Rat.inv in
/-- Witness for C8 on the spec's concrete scenario. -/
theorem c8_mutation_frame_witness :
    get_ranks exGT exENS = Except.ok (exRanks, exGTmut, exENS) ∧
      (exGTmut.ensemble_member = [-1] ∧ exGTmut.data_vars = exGT.data_vars ∧
        exGTmut.dims = exGT.dims ∧ exGTmut.init_time = exGT.init_time ∧
        exENS = exENS) :=
  ⟨by decide, c8_mutation_frame exGT exENS exRanks exGTmut exENS (by decide)⟩

/-! ### Rank arithmetic lemmas -/

/-- If every other value lies strictly below `x`, the average-tie rank
of `x` is the top rank (list length). -/
theorem rank_avg_top (x : ℚ) (l : List ℚ) (h : ∀ y ∈ l, y < x) :
    rank_avg x (x :: l) = (l.length : ℚ) + 1 := by
  unfold rank_avg
  have h1 : (x :: l).countP (fun y => decide (y < x)) = l.length := by
    rw [List.countP_cons_of_neg _ _ (by simp)]
    exact List.countP_eq_length.mpr (fun a ha => by simpa using h a ha)
  have h2 : (x :: l).countP (fun y => decide (y = x)) = 1 := by
    rw [List.countP_cons_of_pos _ _ (by simp)]
    have hz : l.countP (fun y => decide (y = x)) = 0 :=
      List.countP_eq_zero.mpr (fun a ha => by simpa using ne_of_lt (h a ha))
    omega
  rw [h1, h2]
  norm_num

/-- If every other value lies strictly above `x`, the average-tie rank
of `x` is 1. -/
theorem rank_avg_bot (x : ℚ) (l : List ℚ) (h : ∀ y ∈ l, x < y) :
    rank_avg x (x :: l) = 1 := by
  unfold rank_avg
  have h1 : (x :: l).countP (fun y => decide (y < x)) = 0 := by
    rw [List.countP_cons_of_neg _ _ (by simp)]
    exact List.countP_eq_zero.mpr (fun a ha => by simpa using not_lt_of_gt (h a ha))
  have h2 : (x :: l).countP (fun y => decide (y = x)) = 1 := by
    rw [List.countP_cons_of_pos _ _ (by simp)]
    have hz : l.countP (fun y => decide (y = x)) = 0 :=
      List.countP_eq_zero.mpr (fun a ha => by simpa using (ne_of_lt (h a ha)).symm)
    omega
  rw [h1, h2]
  norm_num

/-- The average-tie rank of `x` among itself and `l` lies between 1
and the list length. -/
theorem rank_avg_bounds (x : ℚ) (l : List ℚ) :
    1 ≤ rank_avg x (x :: l) ∧ rank_avg x (x :: l) ≤ (l.length : ℚ) + 1 := by
  unfold rank_avg
  have hb : 1 ≤ (x :: l).countP (fun y => decide (y = x)) := by
    rw [List.countP_cons_of_pos _ _ (by simp)]
    omega
  have hsum : (x :: l).countP (fun y => decide (y < x)) +
      (x :: l).countP (fun y => decide (y = x)) ≤ l.length + 1 := by
    have hmono : (x :: l).countP (fun y => decide (y = x)) ≤
        (x :: l).countP (fun y => decide (¬ (decide (y < x) = true))) :=
      List.countP_mono_left (fun y _ hy => by
        simp only [decide_eq_true_eq] at hy
        simp [hy])
    have hlen := List.length_eq_countP_add_countP (fun y => decide (y < x)) (x :: l)
    simp only [List.length_cons] at hlen
    omega
  set a := (x :: l).countP (fun y => decide (y < x)) with ha
  set b := (x :: l).countP (fun y => decide (y = x)) with hbdef
  have hbq : (1 : ℚ) ≤ (b : ℚ) := by exact_mod_cast hb
  have hsq : (a : ℚ) + (b : ℚ) ≤ (l.length : ℚ) + 1 := by exact_mod_cast hsum
  constructor
  · have : (0 : ℚ) ≤ (a : ℚ) := by positivity
    linarith
  · linarith

/-! ### Locating variables and ranks in the results -/

/-- Looking up a name that occurs among the keys finds an entry
carrying that name. -/
theorem find?_fst_of_mem {α : Type} (l : List (String × α)) (nm : String)
    (h : nm ∈ l.map Prod.fst) :
    ∃ q, l.find? (fun p => p.1 == nm) = some q ∧ q.1 = nm := by
  induction l with
  | nil => simp at h
  | cons a tl ih =>
    by_cases ha : a.1 = nm
    · exact ⟨a, List.find?_cons_of_pos _ (by simp [ha]), ha⟩
    · rw [List.map_cons, List.mem_cons] at h
      rcases h with h1 | h1
      · exact absurd h1.symm ha
      obtain ⟨q, hq, hq1⟩ := ih h1
      exact ⟨q, by rw [List.find?_cons_of_neg _ (by simp [ha])]; exact hq, hq1⟩

/-- Indexing a map over `List.range`. -/
theorem getD_map_range {α : Type} (g : Nat → α) (n t : Nat) (ht : t < n) (d : α) :
    (((List.range n).map g).getD t d) = g t := by
  rw [List.getD_eq_getElem?_getD]
  simp [List.getElem?_range, ht]

/-- `find?` by key commutes with a map that preserves keys. -/
theorem find?_map_fst {α β : Type} (l : List (String × α))
    (g : String × α → β) (nm : String) :
    (l.map (fun p => (p.1, g p))).find? (fun p => p.1 == nm) =
      (l.find? (fun p => p.1 == nm)).map (fun p => (p.1, g p)) := by
  induction l with
  | nil => rfl
  | cons a tl ih =>
    rw [List.map_cons]
    cases h : (a.1 == nm) <;> simp [List.find?_cons, h, ih]

/-- On inputs passing the dimension assert, the rank list of a present
variable is the pointwise average-tie rank of the truth value within
the merged column. -/
theorem ranksForRes_ok (gt ens : Dataset) (h : dimsAssertOk gt ens = true)
    (nm : String) (hmem : nm ∈ gt.data_vars.map Prod.fst) :
    ranksForRes (get_ranks gt ens) nm =
      (List.range gt.init_time.length).map (fun t =>
        rank_avg (gtValAt gt nm t) (gtValAt gt nm t :: ensColAt ens nm t)) := by
  have hgr : get_ranks gt ens = Except.ok
      (⟨gt.data_vars.map (fun p =>
          (p.1, (List.range gt.init_time.length).map (fun t =>
            rank_avg (gtValAt gt p.1 t)
              (gtValAt gt p.1 t :: ensColAt ens p.1 t))))⟩,
        { gt with ensemble_member := [-1] }, ens) := by
    unfold get_ranks
    rw [if_pos h]
  obtain ⟨q, hq, hq1⟩ := find?_fst_of_mem gt.data_vars nm hmem
  rw [hgr]
  simp only [ranksForRes]
  rw [find?_map_fst gt.data_vars (fun p =>
    (List.range gt.init_time.length).map (fun t =>
      rank_avg (gtValAt gt p.1 t) (gtValAt gt p.1 t :: ensColAt ens p.1 t))) nm]
  rw [hq]
  simp [hq1]

/-- Under `shapesOk`, a present variable's member column has exactly
one entry per ensemble member. -/
theorem ensColAt_length (ens : Dataset) (nm : String) (hs : shapesOk ens = true)
    (hmem : nm ∈ ens.data_vars.map Prod.fst) (t : Nat) :
    (ensColAt ens nm t).length = ens.ensemble_member.length := by
  unfold ensColAt lookupVar
  obtain ⟨q, hq, _⟩ := find?_fst_of_mem ens.data_vars nm hmem
  rw [hq]
  have hqmem := List.mem_of_find?_eq_some hq
  have hall := (List.all_eq_true.mp hs) q hqmem
  simp only [Bool.and_eq_true, beq_iff_eq] at hall
  simp [hall.1]

/-! ### C4 — truth strictly outside the ensemble gets an extreme rank -/

unseal Rat.add Rat.mul Rat.inv in
/-- C4: on valid inputs, where the truth at an init_time strictly
exceeds all N ensemble values its rank is N+1, and where it is
strictly below all of them its rank is 1; on the spec's concrete
scenario (members {0,1,2}, truths 0 and 4 against values {1,2,3}) the
ranks are [1, 4]. -/
theorem c4_rank_extremes :
    (∀ (gt ens : Dataset) (nm : String) (t : Nat),
        wfInputs gt ens = true → dimsAssertOk gt ens = true →
        nm ∈ gt.data_vars.map Prod.fst → t < gt.init_time.length →
        ((∀ y ∈ ensColAt ens nm t, y < gtValAt gt nm t) →
          rankAtRes (get_ranks gt ens) nm t = (ens.ensemble_member.length : ℚ) + 1) ∧
        ((∀ y ∈ ensColAt ens nm t, gtValAt gt nm t < y) →
          rankAtRes (get_ranks gt ens) nm t = 1)) ∧
    ranksForRes (get_ranks exGT exENS) "temp" = [1, 4] := by
  constructor
  · intro gt ens nm t hwf hdims hmem ht
    have hr : rankAtRes (get_ranks gt ens) nm t =
        rank_avg (gtValAt gt nm t) (gtValAt gt nm t :: ensColAt ens nm t) := by
      rw [rankAtRes, ranksForRes_ok gt ens hdims nm hmem, getD_map_range _ _ _ ht]
    simp only [wfInputs, Bool.and_eq_true, beq_iff_eq, decide_eq_true_eq] at hwf
    obtain ⟨⟨⟨⟨⟨hshg, hshe⟩, hm1⟩, hnames⟩, hnodup⟩, hinit⟩ := hwf
    have hmem' : nm ∈ ens.data_vars.map Prod.fst := by rw [← hnames]; exact hmem
    have hcol : (ensColAt ens nm t).length = ens.ensemble_member.length :=
      ensColAt_length ens nm hshe hmem' t
    constructor
    · intro hlt
      rw [hr, rank_avg_top _ _ hlt, hcol]
    · intro hab
      rw [hr, rank_avg_bot _ _ hab]
  · decide

unseal Rat.add Rat.mul Rat.inv in
/-- Witness for C4 at `t1` of the concrete scenario: the truth 4
strictly exceeds the member values 1, 2, 3, and its rank is 3 + 1. -/
theorem c4_rank_extremes_witness :
    (wfInputs exGT exENS = true ∧ dimsAssertOk exGT exENS = true ∧
      "temp" ∈ exGT.data_vars.map Prod.fst ∧ 1 < exGT.init_time.length ∧
      (∀ y ∈ ensColAt exENS "temp" 1, y < gtValAt exGT "temp" 1)) ∧
    rankAtRes (get_ranks exGT exENS) "temp" 1 = (exENS.ensemble_member.length : ℚ) + 1 :=
  ⟨⟨by decide, by decide, by decide, by decide, by decide⟩,
    (c4_rank_extremes.1 exGT exENS "temp" 1 (by decide) (by decide) (by decide)
      (by decide)).1 (by decide)⟩

/-! ### C3 — every rank lies in [1, N+1] -/

/-- C3: on valid inputs, every rank `get_ranks` returns (for each
variable and init_time) lies in the closed interval [1, N+1], N being
the ensemble size. -/
theorem c3_rank_in_range (gt ens : Dataset) (r : Ranks) (g e : Dataset)
    (hwf : wfInputs gt ens = true)
    (hok : get_ranks gt ens = Except.ok (r, g, e)) :
    ∀ nm rl, (nm, rl) ∈ r.data_vars → ∀ q ∈ rl,
      1 ≤ q ∧ q ≤ (ens.ensemble_member.length : ℚ) + 1 := by
  intro nm rl hmem q hq
  have hdims : dimsAssertOk gt ens = true := by
    by_contra hne
    unfold get_ranks at hok
    rw [if_neg hne] at hok
    exact absurd hok (by simp)
  unfold get_ranks at hok
  rw [if_pos hdims] at hok
  simp only [Except.ok.injEq, Prod.mk.injEq] at hok
  obtain ⟨hre, _, _⟩ := hok
  subst hre
  simp only [List.mem_map] at hmem
  obtain ⟨p, hp, heq⟩ := hmem
  simp only [Prod.mk.injEq] at heq
  obtain ⟨hp1, hrl⟩ := heq
  rw [← hrl] at hq
  simp only [List.mem_map] at hq
  obtain ⟨t, _, hqeq⟩ := hq
  have hbounds := rank_avg_bounds (gtValAt gt p.1 t) (ensColAt ens p.1 t)
  rw [hqeq] at hbounds
  refine ⟨hbounds.1, ?_⟩
  simp only [wfInputs, Bool.and_eq_true, beq_iff_eq, decide_eq_true_eq] at hwf
  obtain ⟨⟨⟨⟨⟨hshg, hshe⟩, hm1⟩, hnames⟩, hnodup⟩, hinit⟩ := hwf
  have hmemg : p.1 ∈ gt.data_vars.map Prod.fst := List.mem_map_of_mem Prod.fst hp
  have hmeme : p.1 ∈ ens.data_vars.map Prod.fst := by rw [← hnames]; exact hmemg
  have hcol : (ensColAt ens p.1 t).length = ens.ensemble_member.length :=
    ensColAt_length ens p.1 hshe hmeme t
  rw [hcol] at hbounds
  exact hbounds.2

unseal Rat.add Rat.mul Rat.inv in
/-- Witness for C3 on the concrete scenario: the rank 1 observed at
`t0` lies within [1, 3 + 1]. -/
theorem c3_rank_in_range_witness :
    (wfInputs exGT exENS = true ∧
      get_ranks exGT exENS = Except.ok (exRanks, exGTmut, exENS) ∧
      ("temp", [(1 : ℚ), 4]) ∈ exRanks.data_vars ∧ (1 : ℚ) ∈ [(1 : ℚ), 4]) ∧
    (1 ≤ (1 : ℚ) ∧ (1 : ℚ) ≤ (exENS.ensemble_member.length : ℚ) + 1) :=
  ⟨⟨by decide, by decide, by decide, by decide⟩,
    c3_rank_in_range exGT exENS exRanks exGTmut exENS (by decide) (by decide)
      "temp" [(1 : ℚ), 4] (by decide) 1 (by decide)⟩

/-! ### C6 — the dtype assert compares against the exact string "int64" -/

/-- C6 counterexample: a mapping whose only array is a 64-bit integer
array of dtype uint64 makes `get_entropy_of_distributions` raise,
although the claim says 64-bit integer arrays (signed or unsigned)
must pass: the code compares `value.dtype == "int64"`, and
`np.uint64` is not `"int64"`. -/
theorem c6_uint64_raises :
    c6Input = [("x", ⟨DType.uint64, [2], [1, 1]⟩)] ∧
      get_entropy_of_distributions c6Input = Except.error (int64CheckMsg "x") :=
  ⟨rfl, rfl⟩

/-- C6 amended: `get_entropy_of_distributions` raises an error iff
some array's element type is not exactly the signed 64-bit type
int64 (so uint64 raises too), and the error names the first
offending variable. -/
theorem c6_dtype_assert (d : List (String × NpArr)) :
    ((∃ msg, get_entropy_of_distributions d = Except.error msg) ↔
      ∃ p ∈ d, p.2.dtype ≠ DType.int64) ∧
    (∀ p, d.find? (fun q => !(q.2.dtype == DType.int64)) = some p →
      get_entropy_of_distributions d = Except.error (int64CheckMsg p.1)) := by
  constructor
  · constructor
    · rintro ⟨msg, hmsg⟩
      unfold get_entropy_of_distributions at hmsg
      cases hfind : d.find? (fun q => !(q.2.dtype == DType.int64)) with
      | none => rw [hfind] at hmsg; exact absurd hmsg (by simp)
      | some p =>
        have hsat := List.find?_some hfind
        have hpmem := List.mem_of_find?_eq_some hfind
        refine ⟨p, hpmem, ?_⟩
        simpa using hsat
    · rintro ⟨p, hpmem, hpd⟩
      unfold get_entropy_of_distributions
      cases hfind : d.find? (fun q => !(q.2.dtype == DType.int64)) with
      | some q => exact ⟨int64CheckMsg q.1, rfl⟩
      | none =>
        rw [List.find?_eq_none] at hfind
        exact absurd (by simpa using hpd) (hfind p hpmem)
  · intro p hp
    unfold get_entropy_of_distributions
    rw [hp]

/-- Witness for the amended C6 at the uint64 input. -/
theorem c6_dtype_assert_witness :
    c6Input.find? (fun q => !(q.2.dtype == DType.int64)) =
      some ("x", ⟨DType.uint64, [2], [1, 1]⟩) ∧
    get_entropy_of_distributions c6Input = Except.error (int64CheckMsg "x") :=
  ⟨rfl, (c6_dtype_assert c6Input).2 ("x", ⟨DType.uint64, [2], [1, 1]⟩) rfl⟩

/-! ### C7 — entropy of one-hot and uniform histograms -/

/-- The Shannon entropy of a count list with all mass in one bin
is 0. -/
theorem shannonEntropy_onehot (a b : Nat) (c : ℚ) (hc : c ≠ 0) :
    shannonEntropy (List.replicate a 0 ++ c :: List.replicate b 0) = 0 := by
  unfold shannonEntropy
  have hsum : (List.replicate a (0 : ℚ) ++ c :: List.replicate b 0).sum = c := by
    simp [List.sum_append, List.sum_replicate]
  rw [hsum]
  simp only [List.map_append, List.map_cons, List.map_replicate, List.sum_append,
    List.sum_cons, List.sum_replicate, zero_div, Rat.cast_zero, Real.negMulLog_zero,
    smul_zero, zero_add, add_zero]
  rw [div_self hc, Rat.cast_one, Real.negMulLog_one]

/-- The Shannon entropy of a uniform count list over `n` bins is
`ln n`. -/
theorem shannonEntropy_uniform (n : Nat) (c : ℚ) (hn : n ≠ 0) (hc : c ≠ 0) :
    shannonEntropy (List.replicate n c) = Real.log (n : ℝ) := by
  unfold shannonEntropy
  have hsum : (List.replicate n c).sum = (n : ℚ) * c := by
    simp [List.sum_replicate, nsmul_eq_mul]
  rw [hsum]
  have hnq : ((n : ℚ)) ≠ 0 := Nat.cast_ne_zero.mpr hn
  have hdiv : (c / ((n : ℚ) * c) : ℚ) = ((n : ℚ))⁻¹ := by
    field_simp
    ring
  rw [List.map_replicate, hdiv, List.sum_replicate, nsmul_eq_mul]
  have hcast : ((((n : ℚ))⁻¹ : ℚ) : ℝ) = ((n : ℝ))⁻¹ := by
    push_cast
    ring
  rw [hcast, Real.negMulLog, Real.log_inv]
  have hnR : (n : ℝ) ≠ 0 := Nat.cast_ne_zero.mpr hn
  field_simp

/-- C7: on int64 count arrays, `get_entropy_of_distributions` returns
entropy 0 for a one-hot histogram and `ln(N+1)` for a uniform
histogram over N+1 bins (Shannon entropy, natural log, empty bins
contributing 0). -/
theorem c7_entropy_extremes :
    (∀ (nm : String) (a b c : Nat), 0 < c →
      get_entropy_of_distributions
          [(nm, ⟨DType.int64, [a + 1 + b],
            List.replicate a (0 : ℚ) ++ (c : ℚ) :: List.replicate b (0 : ℚ)⟩)] =
        Except.ok [(nm, 0)]) ∧
    (∀ (nm : String) (N c : Nat), 0 < c →
      get_entropy_of_distributions
          [(nm, ⟨DType.int64, [N + 1], List.replicate (N + 1) ((c : ℚ))⟩)] =
        Except.ok [(nm, Real.log ((N : ℝ) + 1))]) := by
  constructor
  · intro nm a b c hc
    have hcq : ((c : ℚ)) ≠ 0 := Nat.cast_ne_zero.mpr hc.ne'
    have hred : get_entropy_of_distributions
        [(nm, ⟨DType.int64, [a + 1 + b],
          List.replicate a (0 : ℚ) ++ (c : ℚ) :: List.replicate b (0 : ℚ)⟩)] =
        Except.ok [(nm, shannonEntropy
          (List.replicate a (0 : ℚ) ++ (c : ℚ) :: List.replicate b (0 : ℚ)))] := rfl
    rw [hred, shannonEntropy_onehot a b _ hcq]
  · intro nm N c hc
    have hcq : ((c : ℚ)) ≠ 0 := Nat.cast_ne_zero.mpr hc.ne'
    have hred : get_entropy_of_distributions
        [(nm, ⟨DType.int64, [N + 1], List.replicate (N + 1) ((c : ℚ))⟩)] =
        Except.ok [(nm, shannonEntropy (List.replicate (N + 1) ((c : ℚ))))] := rfl
    rw [hred, shannonEntropy_uniform (N + 1) _ (Nat.succ_ne_zero N) hcq]
    norm_num

/-- Witness for C7: one-hot `[1, 0]` has entropy 0; uniform
`[2, 2, 2, 2]` over 4 bins has entropy `ln 4`. -/
theorem c7_entropy_extremes_witness :
    (0 < 1 ∧ get_entropy_of_distributions
        [("x", ⟨DType.int64, [0 + 1 + 1],
          List.replicate 0 (0 : ℚ) ++ ((1 : ℕ) : ℚ) :: List.replicate 1 (0 : ℚ)⟩)] =
      Except.ok [("x", 0)]) ∧
    (0 < 2 ∧ get_entropy_of_distributions
        [("y", ⟨DType.int64, [3 + 1], List.replicate (3 + 1) (((2 : ℕ) : ℚ))⟩)] =
      Except.ok [("y", Real.log ((3 : ℝ) + 1))]) :=
  ⟨⟨by decide, c7_entropy_extremes.1 "x" 0 1 1 (by decide)⟩,
    ⟨by decide, c7_entropy_extremes.2 "y" 3 2 (by decide)⟩⟩

/-! ### Structure of successful distribution lookups -/

/-- A successful per-variable lookup always carries dtype int64 (the
counts of `np.unique` are `int64` and fancy indexing preserves the
dtype). -/
theorem distFor_ok_dtype (rl : List ℚ) (n : Nat) (arr : NpArr)
    (h : distFor rl n = Except.ok arr) : arr.dtype = DType.int64 := by
  unfold distFor at h
  split at h
  · injection h with h
    rw [← h]
  · exact absurd h (by simp)

/-- A successful loop pairs every variable with a successful lookup
of its rank list. -/
theorem distLoop_ok_forall2 (n : Nat) :
    ∀ (l : List (String × List ℚ)) (out : List (String × NpArr)),
      distLoop n l = Except.ok out →
      List.Forall₂ (fun (p : String × List ℚ) (q : String × NpArr) =>
        q.1 = p.1 ∧ distFor p.2 n = Except.ok q.2) l out := by
  intro l
  induction l with
  | nil =>
    intro out h
    injection h with h
    rw [← h]
    exact List.Forall₂.nil
  | cons a tl ih =>
    intro out h
    unfold distLoop at h
    cases hd : distFor a.2 n with
    | error e => rw [hd] at h; exact absurd h (by simp)
    | ok arr =>
      rw [hd] at h
      dsimp only [] at h
      cases hl : distLoop n tl with
      | error e => rw [hl] at h; exact absurd h (by simp)
      | ok rest =>
        rw [hl] at h
        dsimp only [] at h
        injection h with h
        rw [← h]
        exact List.Forall₂.cons ⟨rfl, hd⟩ (ih rest hl)

/-- Each member of the right list of a `Forall₂` is related to some
member of the left list. -/
theorem forall2_mem_right {α β : Type} {R : α → β → Prop} :
    ∀ {l : List α} {out : List β}, List.Forall₂ R l out →
      ∀ b ∈ out, ∃ a ∈ l, R a b := by
  intro l out h
  induction h with
  | nil => intro b hb; simp at hb
  | cons hr htl ih =>
    intro b hb
    rcases List.mem_cons.mp hb with rfl | hb'
    · exact ⟨_, List.mem_cons_self _ _, hr⟩
    · obtain ⟨a, ha, hra⟩ := ih b hb'
      exact ⟨a, List.mem_cons_of_mem _ ha, hra⟩

/-- Every array a successful loop produces has dtype int64. -/
theorem distLoop_ok_dtype (n : Nat) (l : List (String × List ℚ))
    (out : List (String × NpArr)) (h : distLoop n l = Except.ok out) :
    ∀ p ∈ out, p.2.dtype = DType.int64 := by
  intro p hp
  obtain ⟨a, _, _, hd⟩ := forall2_mem_right (distLoop_ok_forall2 n l out h) p hp
  exact distFor_ok_dtype a.2 n p.2 hd

/-! ### C10 — the pipeline's own output always passes the dtype assert -/

/-- C10: whenever `get_ranks_distributions` returns, feeding its
result straight into `get_entropy_of_distributions` cannot trip the
int64 assert: every count array the aggregation produces is int64. -/
theorem c10_pipeline_dtype (gt ens : Dataset) (res : List (String × NpArr))
    (g e : Dataset)
    (hok : get_ranks_distributions gt ens = Except.ok (res, g, e)) :
    ∀ msg, get_entropy_of_distributions res ≠ Except.error msg := by
  have hall : ∀ p ∈ res, p.2.dtype = DType.int64 := by
    unfold get_ranks_distributions at hok
    cases hgr : get_ranks gt ens with
    | error s => rw [hgr] at hok; exact absurd hok (by simp)
    | ok triple =>
      obtain ⟨ranks, gt', ens'⟩ := triple
      rw [hgr] at hok
      dsimp only [] at hok
      cases hdl : distLoop (ens.ensemble_member.length + 1) ranks.data_vars with
      | error s => rw [hdl] at hok; exact absurd hok (by simp)
      | ok out =>
        rw [hdl] at hok
        dsimp only [] at hok
        simp only [Except.ok.injEq, Prod.mk.injEq] at hok
        obtain ⟨hres, _, _⟩ := hok
        subst hres
        exact distLoop_ok_dtype _ _ _ hdl
  intro msg hcon
  unfold get_entropy_of_distributions at hcon
  cases hfind : res.find? (fun q => !(q.2.dtype == DType.int64)) with
  | none => rw [hfind] at hcon; exact absurd hcon (by simp)
  | some p =>
    have hsat := List.find?_some hfind
    have hpmem := List.mem_of_find?_eq_some hfind
    have hdt := hall p hpmem
    simp [hdt] at hsat

unseal Rat.add Rat.mul Rat.inv in
/-- Witness for C10 on the input realizing every canonical rank. -/
theorem c10_pipeline_dtype_witness :
    get_ranks_distributions c9GT c9ENS = Except.ok (c9Res, c9GTmut, c9ENS) ∧
      get_entropy_of_distributions c9Res ≠ Except.error (int64CheckMsg "temp") :=
  ⟨by decide,
    c10_pipeline_dtype c9GT c9ENS c9Res c9GTmut c9ENS (by decide)
      (int64CheckMsg "temp")⟩

/-! ### C9 — shape and content of the returned count arrays -/

/-- Filtering `List.range` by a predicate satisfied by exactly one
index yields that index alone. -/
theorem filter_range_unique (p : Nat → Bool) :
    ∀ (n m : Nat), m < n → p m = true → (∀ j, j < n → p j = true → j = m) →
      (List.range n).filter p = [m] := by
  intro n
  induction n with
  | zero => intro m hm _ _; omega
  | succ k ih =>
    intro m hm hpm huniq
    rw [List.range_succ, List.filter_append]
    by_cases hmk : m = k
    · subst hmk
      have hnone : (List.range m).filter p = [] := by
        rw [List.filter_eq_nil_iff]
        intro j hj hpj
        rw [List.mem_range] at hj
        have := huniq j (by omega) hpj
        omega
      rw [hnone, List.nil_append]
      simp [hpm]
    · have hpk : p k = false := by
        cases hcase : p k with
        | false => rfl
        | true => exact absurd (huniq k (by omega) hcase).symm hmk
      rw [ih m (by omega) hpm (fun j hj hpj => huniq j (by omega) hpj)]
      simp [hpk]

/-- A lookup row is the singleton count of its canonical rank when
that rank occurs among the ranks, and empty otherwise. -/
theorem rankRow_eq (rl : List ℚ) (k : ℚ) :
    rankRow rl k = if k ∈ rl then [((rl.count k : ℕ) : ℚ)] else [] := by
  have humem : ∀ x, x ∈ uniqueSorted rl ↔ x ∈ rl := by
    intro x
    unfold uniqueSorted
    rw [List.mem_insertionSort, List.mem_dedup]
  have hnd : (uniqueSorted rl).Nodup := by
    unfold uniqueSorted
    exact ((List.perm_insertionSort _ rl.dedup).nodup_iff).mpr (List.nodup_dedup rl)
  unfold rankRow positionsOf
  by_cases hk : k ∈ rl
  · have hku : k ∈ uniqueSorted rl := (humem k).mpr hk
    have hidx : List.indexOf k (uniqueSorted rl) < (uniqueSorted rl).length :=
      List.indexOf_lt_length.mpr hku
    have hfilter : (List.range (uniqueSorted rl).length).filter
        (fun i => decide ((uniqueSorted rl).getD i 0 = k)) =
        [List.indexOf k (uniqueSorted rl)] := by
      apply filter_range_unique _ _ _ hidx
      · simp only [decide_eq_true_eq]
        rw [List.getD_eq_getElem?_getD, List.getElem?_eq_getElem hidx]
        simp [List.getElem_indexOf hidx]
      · intro j hj hpj
        simp only [decide_eq_true_eq] at hpj
        rw [List.getD_eq_getElem?_getD, List.getElem?_eq_getElem hj] at hpj
        simp only [Option.getD_some] at hpj
        have hjj : (uniqueSorted rl)[j] = (uniqueSorted rl)[List.indexOf k (uniqueSorted rl)] := by
          rw [hpj, List.getElem_indexOf hidx]
        exact (hnd.getElem_inj_iff).mp hjj
    rw [if_pos hk, hfilter, List.map_cons, List.map_nil]
    congr 1
    unfold uniqueCounts
    rw [List.getD_eq_getElem?_getD, List.getElem?_map, List.getElem?_eq_getElem hidx]
    simp [List.getElem_indexOf hidx]
  · rw [if_neg hk]
    have hfilter : (List.range (uniqueSorted rl).length).filter
        (fun i => decide ((uniqueSorted rl).getD i 0 = k)) = [] := by
      rw [List.filter_eq_nil_iff]
      intro j hj
      rw [List.mem_range] at hj
      simp only [decide_eq_true_eq]
      rw [List.getD_eq_getElem?_getD, List.getElem?_eq_getElem hj]
      simp only [Option.getD_some]
      intro hc
      exact hk ((humem _).mp (hc ▸ List.getElem_mem hj))
    rw [hfilter]
    rfl

/-- Every lookup row has at most one entry. -/
theorem rankRow_length_le (rl : List ℚ) (k : ℚ) : (rankRow rl k).length ≤ 1 := by
  rw [rankRow_eq]
  split <;> simp

/-- Slicing the flattening of equal-length rows recovers the rows. -/
theorem flatten_slice {α : Type} (L : Nat) :
    ∀ (ls : List (List α)) (i : Nat), (∀ r ∈ ls, r.length = L) → i < ls.length →
      ((ls.flatten.drop (i * L)).take L = ls.getD i []) := by
  intro ls
  induction ls with
  | nil => intro i _ hi; simp at hi
  | cons r tl ih =>
    intro i hlen hi
    have hr : r.length = L := hlen r (List.mem_cons_self r tl)
    cases i with
    | zero =>
      simp only [List.flatten_cons, Nat.zero_mul, List.drop_zero, List.getD_cons_zero]
      rw [List.take_left' hr]
    | succ j =>
      simp only [List.flatten_cons, List.getD_cons_succ]
      rw [Nat.succ_mul, Nat.add_comm (j * L) L, ← List.drop_drop, List.drop_left' hr]
      exact ih j (fun s hs => hlen s (List.mem_cons_of_mem _ hs))
        (Nat.lt_of_succ_lt_succ hi)

/-- A `Forall₂` relation forcing equal keys makes the key lists
equal. -/
theorem forall2_map_eq {α β γ : Type} (f : α → γ) (g : β → γ)
    {R : α → β → Prop} (hR : ∀ a b, R a b → g b = f a) :
    ∀ {l : List α} {out : List β}, List.Forall₂ R l out →
      out.map g = l.map f := by
  intro l out h
  induction h with
  | nil => rfl
  | cons hr htl ih => simp [ih, hR _ _ hr]

/-- What a successful per-variable lookup delivers: an int64 array of
shape `(n_ranks, L)` with `L ≤ 1`, whose row `i` is the singleton
count of canonical rank `i+1` when that rank occurs and is empty
otherwise. -/
theorem distFor_ok_spec (rl : List ℚ) (n : Nat) (arr : NpArr)
    (h : distFor rl n = Except.ok arr) :
    arr.dtype = DType.int64 ∧
    ∃ L, L ≤ 1 ∧ arr.shape = [n, L] ∧
      ∀ i, i < n → rowSlice arr i =
        if ((i : ℚ) + 1) ∈ rl then [((rl.count ((i : ℚ) + 1) : ℕ) : ℚ)] else [] := by
  unfold distFor at h
  by_cases hall : ((rankRows rl n).all
      (fun r => r.length == ((rankRows rl n).headD []).length)) = true
  · rw [if_pos hall] at h
    injection h with h
    subst h
    refine ⟨rfl, ((rankRows rl n).headD []).length, ?_, rfl, ?_⟩
    · cases n with
      | zero => simp [rankRows]
      | succ m =>
        rw [rankRows, List.range_succ_eq_map, List.map_cons]
        simp only [List.headD_cons]
        exact rankRow_length_le rl _
    · intro i hi
      have hlen : ∀ r ∈ rankRows rl n, r.length = ((rankRows rl n).headD []).length := by
        intro r hrr
        have := (List.all_eq_true.mp hall) r hrr
        simpa using this
      have hrows_len : (rankRows rl n).length = n := by simp [rankRows]
      have hslice := flatten_slice ((rankRows rl n).headD []).length (rankRows rl n) i
        hlen (by rw [hrows_len]; exact hi)
      show (((rankRows rl n).flatten.drop (i * ((rankRows rl n).headD []).length)).take
        ((rankRows rl n).headD []).length) = _
      rw [hslice, rankRows, getD_map_range _ _ _ hi, rankRow_eq]
  · rw [if_neg hall] at h
    exact absurd h (by simp)

unseal Rat.add Rat.mul Rat.inv in
/-- C9 counterexample: on the input where every canonical rank occurs
once, the returned count array for `temp` has shape `(4, 1)` — a
column of singleton rows — not the flat length-4 vector the claim
describes. -/
theorem c9_result_not_flat :
    (distArrOf (get_ranks_distributions c9GT c9ENS) "temp").shape = [4, 1] ∧
      ([4, 1] : List Nat) ≠ [4] :=
  ⟨by decide, by decide⟩

/-- C9 amended: on every valid input pair (same variables in both
datasets, aligned coordinates, conforming shapes — the embedding
covers exactly these, since `xr.merge` would add ensemble-only
variables on mismatched inputs) for which `get_ranks_distributions`
returns without error, the result maps exactly the input's variable
names (in order) to int64 arrays of shape `(N+1, L)` with a common
row length `L ≤ 1`, ordered by ascending rank: row `i` holds the
singleton count of rank `i+1` when that rank occurs among the
variable's ranks, and is empty otherwise. -/
theorem c9_distribution_shape (gt ens : Dataset) (res : List (String × NpArr))
    (g e : Dataset)
    (_hwf : wfInputs gt ens = true)
    (hok : get_ranks_distributions gt ens = Except.ok (res, g, e)) :
    res.map Prod.fst = gt.data_vars.map Prod.fst ∧
    ∃ ranksOut : Ranks, get_ranks gt ens = Except.ok (ranksOut, g, e) ∧
      List.Forall₂ (fun (rv : String × List ℚ) (pv : String × NpArr) =>
        pv.1 = rv.1 ∧ pv.2.dtype = DType.int64 ∧
        ∃ L, L ≤ 1 ∧ pv.2.shape = [ens.ensemble_member.length + 1, L] ∧
          ∀ i, i < ens.ensemble_member.length + 1 →
            rowSlice pv.2 i =
              if ((i : ℚ) + 1) ∈ rv.2 then [((rv.2.count ((i : ℚ) + 1) : ℕ) : ℚ)]
              else [])
        ranksOut.data_vars res := by
  unfold get_ranks_distributions at hok
  cases hgr : get_ranks gt ens with
  | error s => rw [hgr] at hok; exact absurd hok (by simp)
  | ok triple =>
    obtain ⟨ranks, gt', ens'⟩ := triple
    rw [hgr] at hok
    dsimp only [] at hok
    cases hdl : distLoop (ens.ensemble_member.length + 1) ranks.data_vars with
    | error s => rw [hdl] at hok; exact absurd hok (by simp)
    | ok out =>
      rw [hdl] at hok
      dsimp only [] at hok
      simp only [Except.ok.injEq, Prod.mk.injEq] at hok
      obtain ⟨hres, hg, he⟩ := hok
      subst hres
      subst hg
      subst he
      have hf2 := distLoop_ok_forall2 _ _ _ hdl
      have hdims : dimsAssertOk gt ens = true := by
        by_contra hne
        have hgr' := hgr
        unfold get_ranks at hgr'
        rw [if_neg hne] at hgr'
        exact absurd hgr' (by simp)
      have hgr' := hgr
      unfold get_ranks at hgr'
      rw [if_pos hdims] at hgr'
      simp only [Except.ok.injEq, Prod.mk.injEq] at hgr'
      obtain ⟨hranks, _, _⟩ := hgr'
      have h1 : out.map Prod.fst = ranks.data_vars.map Prod.fst :=
        forall2_map_eq Prod.fst Prod.fst (fun a b hab => hab.1) hf2
      refine ⟨?_, ranks, rfl, ?_⟩
      · rw [h1, ← hranks]
        simp [List.map_map, Function.comp]
      · apply List.Forall₂.imp ?_ hf2
        intro a b hab
        obtain ⟨hb1, hbd⟩ := hab
        have hspec := distFor_ok_spec a.2 (ens.ensemble_member.length + 1) b.2 hbd
        exact ⟨hb1, hspec.1, hspec.2⟩

unseal Rat.add Rat.mul Rat.inv in
/-- Witness for the amended C9 on the all-ranks-realized input. -/
theorem c9_distribution_shape_witness :
    wfInputs c9GT c9ENS = true ∧
    get_ranks_distributions c9GT c9ENS = Except.ok (c9Res, c9GTmut, c9ENS) ∧
      (c9Res.map Prod.fst = c9GT.data_vars.map Prod.fst ∧
        ∃ ranksOut : Ranks,
          get_ranks c9GT c9ENS = Except.ok (ranksOut, c9GTmut, c9ENS) ∧
          List.Forall₂ (fun (rv : String × List ℚ) (pv : String × NpArr) =>
            pv.1 = rv.1 ∧ pv.2.dtype = DType.int64 ∧
            ∃ L, L ≤ 1 ∧ pv.2.shape = [c9ENS.ensemble_member.length + 1, L] ∧
              ∀ i, i < c9ENS.ensemble_member.length + 1 →
                rowSlice pv.2 i =
                  if ((i : ℚ) + 1) ∈ rv.2 then [((rv.2.count ((i : ℚ) + 1) : ℕ) : ℚ)]
                  else [])
            ranksOut.data_vars c9Res) :=
  ⟨by decide, by decide,
    c9_distribution_shape c9GT c9ENS c9Res c9GTmut c9ENS (by decide) (by decide)⟩

end EnsembleScore
